import Mathlib

/-!
# Verification of the reminder bot core (`src/bot.py`)

A shallow embedding of the reminder-scheduling core of `src/bot.py`:

* the flexible duration parser `parse_time` (the regex
  `(\d+(\.\d+)?)(h|m|s)` applied with `findall`, terms summed via
  `time_units = {"h": 3600, "m": 60, "s": 1}`);
* the `/remindme` handler's time-token dispatch (`command_remindme_handler`):
  the clock-time regex `^\d{1,2}:\d{2}(?:[apAP][mM])?$`, `strptime`
  validation, the same-day/next-day resolution, the duration branch with its
  `if not delay` check, and the task-text check;
* the enrichment helpers `get_image_from_text` and `get_joke`;
* a small-step semantics of the registry (`reminders` dict), the scheduled
  timer tasks (`schedule_reminder`) and the cancellation dialog
  (`process_cancel_reply`).

Numbers: Python computes delays with `int`/`float`.  The embedding keeps
two views.  `parse_time` works in exact `ℚ`; it is used for the claims that
are insensitive to float rounding (which substrings match and hence whether
the result is `None`, and whether the sum is exactly zero — a sum of
non-negative terms is 0 exactly when every digit is 0, where Python also
computes an exact `0`/`0.0`).  For the exact-sum claim, `parse_time_py`
evaluates the same matches with IEEE-754 binary64 arithmetic (`roundD`,
round to nearest, ties to even), the semantics of Python's `float(...)`,
`*` and `+=`; integer amounts stay exact `int`s as in Python.  Strings are
`List Char`.
-/

/-- Characters of a string literal, for concrete inputs. -/
def chars (s : String) : List Char := s.toList

/-! ## The duration parser `parse_time` (bot.py lines 40-57) -/

/-- `time_units = {"h": 3600, "m": 60, "s": 1}`: whether a character is one
of the unit keys. -/
def isUnit (c : Char) : Bool := c = 'h' || c = 'm' || c = 's'

/-- The seconds value of a unit key of `time_units`. -/
def unitVal (c : Char) : ℚ := if c = 'h' then 3600 else if c = 'm' then 60 else 1

/-- Value of a digit string, as Python `int` reads it. -/
def digitsVal (ds : List Char) : Nat :=
  ds.foldl (fun a c => a * 10 + (c.toNat - '0'.toNat)) 0

/-- Value of the fractional digits `fs` of a decimal number: Python
`float("w.f")` is modelled exactly as `w + f / 10 ^ |f|`. -/
def fracVal (fs : List Char) : ℚ := (digitsVal fs : ℚ) / ((10 : ℚ) ^ fs.length)

/-- The greedy `\d+` of the regex: leading digit run and the remainder. -/
def scanDigits (cs : List Char) : List Char × List Char :=
  (cs.takeWhile Char.isDigit, cs.dropWhile Char.isDigit)

/-- One attempt of the regex `(\d+(\.\d+)?)(h|m|s)` anchored at the head of
`cs`: the term's value in seconds (the captured number times its unit's
`time_units` entry) and the remaining characters, or `none` when no match
starts here.  The fractional group is greedy; since `'.'` is not a unit
letter, the regex's backtracking never helps, so the scan is deterministic. -/
def scanTerm (cs : List Char) : Option (ℚ × List Char) :=
  match scanDigits cs with
  | (ds, rest) =>
    if ds = [] then none
    else
      match rest with
      | [] => none
      | c :: rest2 =>
        if c = '.' then
          match scanDigits rest2 with
          | (fs, rest3) =>
            if fs = [] then none
            else
              match rest3 with
              | [] => none
              | u :: rest4 =>
                if isUnit u then
                  some (((digitsVal ds : ℚ) + fracVal fs) * unitVal u, rest4)
                else none
        else if isUnit c then some ((digitsVal ds : ℚ) * unitVal c, rest2)
        else none

theorem scanDigits_fst_append_snd (cs : List Char) :
    (scanDigits cs).1 ++ (scanDigits cs).2 = cs := by
  simp [scanDigits, List.takeWhile_append_dropWhile]

theorem scanTerm_rest_length {cs : List Char} {v : ℚ} {r : List Char}
    (h : scanTerm cs = some (v, r)) : r.length < cs.length := by
  unfold scanTerm at h
  rcases hd : scanDigits cs with ⟨ds, rest⟩
  rw [hd] at h
  have hlen : ds.length + rest.length = cs.length := by
    have := congrArg List.length (scanDigits_fst_append_snd cs)
    rw [hd] at this; simpa using this
  simp only at h
  split at h
  · exact absurd h (by simp)
  · rename_i hds
    have h1 : ds.length ≠ 0 := by simpa using hds
    match hrest : rest with
    | [] => simp [hrest] at h
    | c :: rest2 =>
      subst hrest
      have h2 : ds.length + (rest2.length + 1) = cs.length := by
        simpa using hlen
      simp only at h
      split at h
      · -- fractional case
        rcases hf : scanDigits rest2 with ⟨fs, rest3⟩
        rw [hf] at h
        have hflen : fs.length + rest3.length = rest2.length := by
          have := congrArg List.length (scanDigits_fst_append_snd rest2)
          rw [hf] at this; simpa using this
        simp only at h
        split at h
        · exact absurd h (by simp)
        · match hr3 : rest3 with
          | [] => simp [hr3] at h
          | u :: rest4 =>
            subst hr3
            have h3 : fs.length + (rest4.length + 1) = rest2.length := by
              simpa using hflen
            simp only at h
            split at h
            · have : r = rest4 := by
                have := h
                simp at this
                exact this.2.symm
              subst this
              omega
            · exact absurd h (by simp)
      · split at h
        · have : r = rest2 := by
            have := h
            simp at this
            exact this.2.symm
          subst this
          omega
        · exact absurd h (by simp)

/-- `re.findall` of the duration pattern, leftmost and non-overlapping: the
values in seconds of every matched term, scanning left to right and advancing
one character past positions where no match starts. -/
def findTerms (cs : List Char) : List ℚ :=
  match hs : scanTerm cs with
  | some vr => vr.1 :: findTerms vr.2
  | none =>
    match cs with
    | [] => []
    | _ :: t => findTerms t
termination_by cs.length
decreasing_by
  · exact scanTerm_rest_length hs
  · simp

/-- `parse_time` (bot.py lines 43-57): `None` when `findall` matches nothing,
otherwise the sum of all matched terms in seconds. -/
def parse_time (cs : List Char) : Option ℚ :=
  match findTerms cs with
  | [] => none
  | ms => some ms.sum

theorem scanTerm_nil : scanTerm [] = none := by
  simp [scanTerm, scanDigits]

/-- Unfolding `findTerms` at a successful match. -/
theorem findTerms_some {cs : List Char} {v : ℚ} {r : List Char}
    (h : scanTerm cs = some (v, r)) : findTerms cs = v :: findTerms r := by
  rw [findTerms]
  split
  · rename_i vr hvr
    rw [h] at hvr
    cases hvr
    rfl
  · rename_i hvr
    rw [h] at hvr
    cases hvr

/-- Unfolding `findTerms` where no match starts: advance one character. -/
theorem findTerms_none {c : Char} {t : List Char}
    (h : scanTerm (c :: t) = none) : findTerms (c :: t) = findTerms t := by
  rw [findTerms]
  split
  · rename_i vr hvr
    rw [h] at hvr
    cases hvr
  · rfl

theorem findTerms_nil : findTerms [] = [] := by
  rw [findTerms]
  split
  · rename_i vr hvr
    rw [scanTerm_nil] at hvr
    cases hvr
  · rfl

/-! ## Duration tokens built from `<number><unit>` terms -/

/-- One `<number><unit>` term of the duration grammar: integer digits, an
optional fractional digit group, and a unit letter. -/
structure Term where
  whole : List Char
  frac : Option (List Char)
  unit : Char

/-- A wellformed term: nonempty digit groups and a `time_units` key. -/
def WfTerm (t : Term) : Prop :=
  t.whole ≠ [] ∧ (∀ c ∈ t.whole, c.isDigit) ∧
    (∀ f ∈ t.frac, f ≠ [] ∧ ∀ c ∈ f, c.isDigit) ∧ isUnit t.unit

instance (t : Term) : Decidable (WfTerm t) := by
  unfold WfTerm; infer_instance

/-- The characters of a term, e.g. `3.5h`. -/
def renderTerm (t : Term) : List Char :=
  t.whole ++ (match t.frac with | some f => '.' :: f | none => []) ++ [t.unit]

/-- A duration token: the terms written down with no separators. -/
def render (ts : List Term) : List Char := (ts.map renderTerm).flatten

/-- The seconds a term contributes: its number times its unit's
`time_units` value, the conversion the spec states as {h:3600, m:60, s:1}. -/
def termVal (t : Term) : ℚ :=
  match t.frac with
  | none => (digitsVal t.whole : ℚ) * unitVal t.unit
  | some f => ((digitsVal t.whole : ℚ) + fracVal f) * unitVal t.unit

theorem isUnit_not_digit {c : Char} (h : isUnit c) : ¬ c.isDigit := by
  rcases (by simpa [isUnit, or_assoc] using h : c = 'h' ∨ c = 'm' ∨ c = 's') with h | h | h <;>
    subst h <;> decide

theorem isUnit_ne_dot {c : Char} (h : isUnit c) : c ≠ '.' := by
  rcases (by simpa [isUnit, or_assoc] using h : c = 'h' ∨ c = 'm' ∨ c = 's') with h | h | h <;>
    subst h <;> decide

/-- The greedy digit scan splits a digit prefix off exactly when the next
character is not a digit. -/
theorem scanDigits_append {ds r : List Char} (hds : ∀ c ∈ ds, c.isDigit)
    (hr : ∀ c ∈ r.head?, ¬ c.isDigit) : scanDigits (ds ++ r) = (ds, r) := by
  induction ds with
  | nil =>
    cases r with
    | nil => rfl
    | cons c t =>
      have : ¬ c.isDigit := hr c rfl
      simp [scanDigits, this]
  | cons d ds ih =>
    have hd : d.isDigit := hds d (by simp)
    have h2 := ih (fun c hc => hds c (by simp [hc]))
    simp only [scanDigits, Prod.mk.injEq] at h2 ⊢
    simp [hd, h2.1, h2.2]

/-- The regex matches one wellformed rendered term at the head, consuming
exactly its characters and yielding its `termVal`. -/
theorem scanTerm_render {t : Term} (hw : WfTerm t) (rest : List Char) :
    scanTerm (renderTerm t ++ rest) = some (termVal t, rest) := by
  obtain ⟨hne, hdig, hfrac, hunit⟩ := hw
  cases hf : t.frac with
  | none =>
    have hr : renderTerm t ++ rest = t.whole ++ (t.unit :: rest) := by
      simp [renderTerm, hf]
    rw [hr]
    unfold scanTerm
    rw [scanDigits_append hdig (by simpa using isUnit_not_digit hunit)]
    simp [hne, isUnit_ne_dot hunit, hunit, termVal, hf]
  | some f =>
    obtain ⟨hfne, hfdig⟩ := hfrac f (by simp [hf])
    have hr : renderTerm t ++ rest = t.whole ++ ('.' :: (f ++ (t.unit :: rest))) := by
      simp [renderTerm, hf]
    rw [hr]
    unfold scanTerm
    rw [scanDigits_append hdig (by simp)]
    simp only [if_neg hne, reduceIte]
    rw [scanDigits_append hfdig (by simpa using isUnit_not_digit hunit)]
    simp [hfne, hunit, termVal, hf]

/-- `findall` on a token made of wellformed terms returns exactly those
terms' values in order. -/
theorem findTerms_render {ts : List Term} (hw : ∀ t ∈ ts, WfTerm t) :
    findTerms (render ts) = ts.map termVal := by
  induction ts with
  | nil => simpa [render] using findTerms_nil
  | cons t ts ih =>
    have h1 : render (t :: ts) = renderTerm t ++ render ts := by
      simp [render]
    rw [h1, findTerms_some (scanTerm_render (hw t (by simp)) (render ts)),
      ih (fun u hu => hw u (by simp [hu]))]
    rfl

/-- `parse_time` on a nonempty wellformed duration token: the sum of the
terms' seconds. -/
theorem parse_time_render {ts : List Term} (hw : ∀ t ∈ ts, WfTerm t)
    (hne : ts ≠ []) : parse_time (render ts) = some ((ts.map termVal).sum) := by
  unfold parse_time
  rw [findTerms_render hw]
  cases ts with
  | nil => cases hne rfl
  | cons t ts => rfl

/-! ## C8: characters outside matches are ignored -/

theorem scanTerm_cons_nondigit {c : Char} {cs : List Char} (h : ¬ c.isDigit) :
    scanTerm (c :: cs) = none := by
  unfold scanTerm
  simp [scanDigits, h]

/-- A digit-free string contributes no matches at its own positions. -/
theorem findTerms_all_nondigit {g : List Char} (hg : ∀ c ∈ g, ¬ c.isDigit) :
    findTerms g = [] := by
  induction g with
  | nil => exact findTerms_nil
  | cons c t ih =>
    rw [findTerms_none (scanTerm_cons_nondigit (hg c (by simp)))]
    exact ih fun x hx => hg x (by simp [hx])

/-- A digit-free prefix is skipped over without affecting the matches. -/
theorem findTerms_drop_prefix {g cs : List Char} (hg : ∀ c ∈ g, ¬ c.isDigit) :
    findTerms (g ++ cs) = findTerms cs := by
  induction g with
  | nil => simp
  | cons c t ih =>
    rw [List.cons_append, findTerms_none (scanTerm_cons_nondigit (hg c (by simp)))]
    exact ih fun x hx => hg x (by simp [hx])

theorem scanDigits_append_nondigit {a g : List Char} (hg : ∀ c ∈ g, ¬ c.isDigit) :
    scanDigits (a ++ g) = ((scanDigits a).1, (scanDigits a).2 ++ g) := by
  induction a with
  | nil =>
    cases g with
    | nil => rfl
    | cons c t => simp [scanDigits, hg c (by simp)]
  | cons c a ih =>
    by_cases hc : c.isDigit
    · simp only [scanDigits, List.cons_append, List.takeWhile_cons, List.dropWhile_cons,
        hc, if_pos] at ih ⊢
      simp only [Prod.mk.injEq] at ih
      simp [hc, ih.1, ih.2]
    · simp [scanDigits, hc]

/-- Appending digit-free, unit-free characters does not change whether a
match starts at the head, nor its value; it only rides along in the rest. -/
theorem scanTerm_append_clean {a g : List Char}
    (hg : ∀ c ∈ g, ¬ c.isDigit ∧ isUnit c = false) :
    scanTerm (a ++ g) = (scanTerm a).map (fun vr => (vr.1, vr.2 ++ g)) := by
  have hgd : ∀ c ∈ g, ¬ c.isDigit := fun c hc => (hg c hc).1
  unfold scanTerm
  rw [scanDigits_append_nondigit hgd]
  rcases hd : scanDigits a with ⟨ds, rest⟩
  simp only
  by_cases hds : ds = []
  · simp [hds]
  · rw [if_neg hds, if_neg hds]
    cases rest with
    | nil =>
      cases g with
      | nil => rfl
      | cons c t =>
        simp only [List.nil_append]
        by_cases hc : c = '.'
        · subst hc
          rcases hf : scanDigits t with ⟨fs, rest3⟩
          have : fs = [] := by
            cases t with
            | nil => simpa [scanDigits] using congrArg Prod.fst hf
            | cons x xs =>
              have hx : ¬ x.isDigit := (hg x (by simp)).1
              simpa [scanDigits, hx] using congrArg Prod.fst hf
          simp [this]
        · have : isUnit c = false := (hg c (by simp)).2
          simp [hc, this]
    | cons c rest2 =>
      simp only [List.cons_append]
      by_cases hc : c = '.'
      · subst hc
        rw [if_pos rfl, if_pos rfl]
        have hgd2 : ∀ x ∈ g, ¬ x.isDigit := hgd
        rw [@scanDigits_append_nondigit rest2 _ hgd2]
        rcases hf : scanDigits rest2 with ⟨fs, rest3⟩
        simp only
        by_cases hfs : fs = []
        · simp [hfs]
        · rw [if_neg hfs, if_neg hfs]
          cases rest3 with
          | nil =>
            cases g with
            | nil => rfl
            | cons u t =>
              have : isUnit u = false := (hg u (by simp)).2
              simp [this]
          | cons u rest4 =>
            simp only [List.cons_append]
            by_cases hu : isUnit u
            · simp [hu]
            · simp [hu]
      · rw [if_neg hc, if_neg hc]
        by_cases hcu : isUnit c
        · simp [hcu]
        · simp [hcu]

/-- Appending digit-free, unit-free characters leaves the match list
unchanged. -/
theorem findTerms_append_clean {g : List Char}
    (hg : ∀ c ∈ g, ¬ c.isDigit ∧ isUnit c = false) :
    ∀ cs, findTerms (cs ++ g) = findTerms cs := by
  have H : ∀ n cs, List.length cs ≤ n → findTerms (cs ++ g) = findTerms cs := by
    intro n
    induction n with
    | zero =>
      intro cs hcs
      have : cs = [] := List.length_eq_zero.mp (Nat.le_zero.mp hcs)
      subst this
      simp only [List.nil_append, findTerms_nil]
      exact findTerms_all_nondigit fun c hc => (hg c hc).1
    | succ n ih =>
      intro cs hcs
      cases cs with
      | nil =>
        simp only [List.nil_append, findTerms_nil]
        exact findTerms_all_nondigit fun c hc => (hg c hc).1
      | cons c t =>
        cases h : scanTerm (c :: t) with
        | some vr =>
          rcases vr with ⟨v, r⟩
          have h2 : scanTerm ((c :: t) ++ g) = some (v, r ++ g) := by
            rw [scanTerm_append_clean hg, h]; rfl
          rw [findTerms_some h2, findTerms_some h]
          have hr : r.length ≤ n := by
            have := scanTerm_rest_length h
            simp only [List.length_cons] at this hcs
            omega
          rw [ih r hr]
        | none =>
          have h2 : scanTerm ((c :: t) ++ g) = none := by
            rw [scanTerm_append_clean hg, h]; rfl
          rw [List.cons_append] at h2
          rw [List.cons_append, findTerms_none h2, findTerms_none h]
          have ht : t.length ≤ n := by
            simp only [List.length_cons] at hcs
            omega
          exact ih t ht
  exact fun cs => H cs.length cs le_rfl

/-- **C8.** The duration parser sums the substrings matching
`<number><unit>` and silently ignores the other characters: wrapping a
token in digit-free garbage (unit-free on the right) does not change the
parse, so garbage-laden tokens are accepted rather than rejected.  (The
witness checks `"x2hy"` parses to 7200 seconds.) -/
theorem c8_garbage_ignored (g1 cs g2 : List Char)
    (h1 : ∀ c ∈ g1, ¬ c.isDigit)
    (h2 : ∀ c ∈ g2, ¬ c.isDigit ∧ isUnit c = false) :
    parse_time (g1 ++ cs ++ g2) = parse_time cs := by
  unfold parse_time
  rw [List.append_assoc, findTerms_drop_prefix h1, findTerms_append_clean h2]

/-- Witness for C8: `"x2hy"` is accepted and parses to 7200 seconds. -/
theorem c8_garbage_ignored_witness : parse_time (chars "x2hy") = some 7200 := by
  have h := c8_garbage_ignored ['x'] (chars "2h") ['y'] (by decide) (by decide)
  have he : ['x'] ++ chars "2h" ++ ['y'] = chars "x2hy" := by decide
  rw [he] at h
  rw [h]
  have h2 := @parse_time_render [⟨chars "2", none, 'h'⟩] (by decide) (by simp)
  have hr : render [⟨chars "2", none, 'h'⟩] = chars "2h" := by decide
  rw [hr] at h2
  rw [h2]
  simp +decide [termVal, unitVal, chars]
  have hd : digitsVal ['2'] = 2 := by decide
  norm_num [hd]

/-! ## The `/remindme` handler (bot.py lines 144-200)

`command_remindme_handler` strips the text after the command, splits off the
first whitespace-delimited token, and dispatches: the clock-time regex
`^\\d{1,2}:\\d{2}(?:[apAP][mM])?$` first, then the duration branch (token
contains a `time_units` key), else the generic wrong-format reply.  `now` is
modelled as a day number `d : ℤ` plus seconds-of-day `tod : ℚ`; an absolute
time is `day * 86400 + seconds`. -/

/-- The optional `[apAP][mM]` suffix of the clock regex: `some mer` when the
tail is empty (`mer = none`) or a meridiem marker (`mer = some pm`),
`none` when the regex does not match. -/
def checkTail (tail : List Char) : Option (Option Bool) :=
  match tail with
  | [] => some none
  | [a, m] =>
    if (a == 'a' || a == 'A' || a == 'p' || a == 'P') && (m == 'm' || m == 'M') then
      some (some (a == 'p' || a == 'P'))
    else none
  | _ => none

/-- `re.match(r"^\\d{1,2}:\\d{2}(?:[apAP][mM])?$", tok)`: the hour digits'
value, the minute digits' value and the meridiem flag, or `none` when the
regex does not match.  `\\d{1,2}` with a following `:` matches exactly the
leading digit run when that run has length 1 or 2. -/
def matchClock (tok : List Char) : Option (Nat × Nat × Option Bool) :=
  let hd := tok.takeWhile Char.isDigit
  let rest := tok.dropWhile Char.isDigit
  if hd.length = 0 ∨ 3 ≤ hd.length then none
  else
    match rest with
    | ':' :: m1 :: m2 :: tail =>
      if m1.isDigit && m2.isDigit then
        (checkTail tail).map fun mer => (digitsVal hd, digitsVal [m1, m2], mer)
      else none
    | _ => none

/-- `datetime.strptime` on the matched token: `"%H:%M"` accepts hours 0-23,
`"%I:%M%p"` accepts hours 1-12 (12 wraps to 0 before the pm offset), minutes
0-59; a failure is the handler's `ValueError` branch.  The result is the
time of day in seconds. -/
def clockTime (h mi : Nat) (mer : Option Bool) : Option ℚ :=
  match mer with
  | none => if h ≤ 23 ∧ mi ≤ 59 then some ((h : ℚ) * 3600 + mi * 60) else none
  | some pm =>
    if 1 ≤ h ∧ h ≤ 12 ∧ mi ≤ 59 then
      some (((h % 12 : Nat) : ℚ) * 3600 + (if pm then 12 else 0) * 3600 + mi * 60)
    else none

/-- The handler's replies, abstracting the five `message.reply` texts and
the two scheduling outcomes (which start a timer and store a registry
entry). -/
inductive Reply
  | scheduledClock (fire : ℚ) (task : List Char)
  | scheduledDur (fire : ℚ) (task : List Char)
  | missingTask
  | invalidClock
  | durationError
  | malformed

/-- The dispatch of `command_remindme_handler` on
`parts = message_text.split(maxsplit=1)`, given now = day `d`,
seconds-of-day `tod`:

* no parts: the generic wrong-format reply (line 199);
* clock regex match: `strptime` (`ValueError` → line 174), combine with
  today's date, add one day if the result is `< now` (line 165-166), then
  require task text (line 171);
* any `time_units` key in the token: `parse_time`, rejecting a `None` or
  zero delay (`if not delay`, line 178), then require task text;
* otherwise the generic wrong-format reply (line 189). -/
def remindmeParts (parts : List (List Char)) (d : ℤ) (tod : ℚ) : Reply :=
  match parts with
  | [] => .malformed
  | tok :: rest =>
    match matchClock tok with
    | some (h, mi, mer) =>
      match clockTime h mi mer with
      | none => .invalidClock
      | some t =>
        let now := (d : ℚ) * 86400 + tod
        let sched := (d : ℚ) * 86400 + t
        let sched := if sched < now then sched + 86400 else sched
        match rest with
        | task :: _ => .scheduledClock sched task
        | [] => .missingTask
    | none =>
      if tok.any isUnit then
        match parse_time tok with
        | none => .durationError
        | some delay =>
          if delay = 0 then .durationError
          else
            match rest with
            | task :: _ => .scheduledDur ((d : ℚ) * 86400 + tod + delay) task
            | [] => .missingTask
      else .malformed

/-- `message_text.split(maxsplit=1)` on the already-stripped text: the first
whitespace-delimited token, and the remainder after the first whitespace
run. -/
def split1 (body : List Char) : List (List Char) :=
  match body with
  | [] => []
  | _ =>
    let tok := body.takeWhile (fun c => ¬ c.isWhitespace)
    let rest := (body.dropWhile (fun c => ¬ c.isWhitespace)).dropWhile Char.isWhitespace
    if rest = [] then [tok] else [tok, rest]

/-- Python `str.strip`. -/
def pyStrip (body : List Char) : List Char :=
  ((body.dropWhile Char.isWhitespace).reverse.dropWhile Char.isWhitespace).reverse

/-- The whole handler on the text after `"/remindme "`. -/
def remindme (body : List Char) (d : ℤ) (tod : ℚ) : Reply :=
  remindmeParts (split1 (pyStrip body)) d tod

/-! ## C4: same-day / next-day resolution of clock tokens -/

/-- **C4 (amended).** A clock token accepted by the regex and by `strptime`
resolves to today's date, advancing one day exactly when the named
time-of-day is *strictly earlier* than now's time-of-day; a time equal to
or later than now stays on the same day (the code's check is
`scheduled_time < now`, line 165). -/
theorem c4_clock_rollover (tok task : List Char) (rest : List (List Char))
    (h mi : Nat) (mer : Option Bool) (t : ℚ) (d : ℤ) (tod : ℚ)
    (hm : matchClock tok = some (h, mi, mer))
    (hc : clockTime h mi mer = some t) :
    remindmeParts (tok :: task :: rest) d tod =
      .scheduledClock
        (if t < tod then (d : ℚ) * 86400 + t + 86400 else (d : ℚ) * 86400 + t)
        task := by
  simp only [remindmeParts, hm, hc]
  have hiff : ((d : ℚ) * 86400 + t < (d : ℚ) * 86400 + tod) ↔ t < tod :=
    add_lt_add_iff_left _
  by_cases ht : t < tod
  · rw [if_pos (hiff.mpr ht), if_pos ht]
  · rw [if_neg (fun hlt => ht (hiff.mp hlt)), if_neg ht]

/-- Witness for C4 (amended): at 14:00, `"13:00"` resolves to tomorrow
13:00 and `"15:00"` to today 15:00. -/
theorem c4_clock_rollover_witness :
    remindmeParts [chars "13:00", chars "buy milk"] 0 50400 =
      Reply.scheduledClock 133200 (chars "buy milk") ∧
    remindmeParts [chars "15:00", chars "buy milk"] 0 50400 =
      Reply.scheduledClock 54000 (chars "buy milk") := by
  constructor
  · have h := c4_clock_rollover (chars "13:00") (chars "buy milk") [] 13 0 none
      46800 0 50400 (by decide) (by norm_num [clockTime])
    rw [h]
    norm_num
  · have h := c4_clock_rollover (chars "15:00") (chars "buy milk") [] 15 0 none
      54000 0 50400 (by decide) (by norm_num [clockTime])
    rw [h]
    norm_num

/-- **C4 counterexample.** A token naming a time exactly equal to now stays
on the *same* day (the claim says it moves to the next day): at exactly
01:00:00, `"1:00"` resolves to today 01:00, not tomorrow. -/
theorem c4_counterexample :
    remindmeParts [chars "1:00", chars "x"] 0 3600 =
      Reply.scheduledClock 3600 (chars "x") ∧
    remindmeParts [chars "1:00", chars "x"] 0 3600 ≠
      Reply.scheduledClock 90000 (chars "x") := by
  have hm : matchClock (chars "1:00") = some (1, 0, none) := by decide
  have hc : clockTime 1 0 none = some 3600 := by norm_num [clockTime]
  have he : remindmeParts [chars "1:00", chars "x"] 0 3600 =
      Reply.scheduledClock 3600 (chars "x") := by
    simp only [remindmeParts, hm, hc]
    norm_num
  refine ⟨he, ?_⟩
  rw [he]
  simp only [ne_eq, Reply.scheduledClock.injEq, not_and]
  intro habs
  norm_num at habs

/-! ## C5: tokens reaching the generic wrong-format reply -/

theorem takeWhile_nil_of_none {p : Char → Bool} {l : List Char}
    (h : ∀ c ∈ l, ¬ p c) : l.takeWhile p = [] := by
  cases l with
  | nil => rfl
  | cons c t => simp [List.takeWhile_cons, h c (by simp)]

/-- The clock regex needs a leading digit and a colon. -/
theorem matchClock_eq_none_of (tok : List Char)
    (h : (∀ c ∈ tok, ¬ c.isDigit) ∨ ':' ∉ tok) : matchClock tok = none := by
  unfold matchClock
  by_cases h0 : (tok.takeWhile Char.isDigit).length = 0 ∨
      3 ≤ (tok.takeWhile Char.isDigit).length
  · simp only [h0, if_pos]
  · rcases h with h | h
    · exact absurd (Or.inl (by rw [takeWhile_nil_of_none h]; rfl)) h0
    · rw [if_neg h0]
      cases hr : tok.dropWhile Char.isDigit with
      | nil => simp
      | cons c r =>
        have hc : c ∈ tok := by
          have h1 : c ∈ tok.dropWhile Char.isDigit := by rw [hr]; simp
          exact (List.dropWhile_sublist _).mem h1
        by_cases hcc : c = ':'
        · exact absurd (hcc ▸ hc) h
        · split
          · exfalso
            simp_all
          · rfl

/-- **C5 (amended).** Every token with no `time_units` letter that has no
digits or no colon draws the generic wrong-format reply ("Please make sure
to use the correct format", line 189) — never the duration- or clock-
specific errors.  (A digit-free token that does contain a unit letter
instead takes the duration branch; see the counterexample.) -/
theorem c5_malformed_tokens (tok : List Char) (rest : List (List Char))
    (d : ℤ) (tod : ℚ)
    (hnu : ∀ c ∈ tok, isUnit c = false)
    (h : (∀ c ∈ tok, ¬ c.isDigit) ∨ ':' ∉ tok) :
    remindmeParts (tok :: rest) d tod = .malformed := by
  have hm := matchClock_eq_none_of tok h
  have hany : tok.any isUnit = false := by
    rw [List.any_eq_false]
    intro c hcm
    simp [hnu c hcm]
  simp [remindmeParts, hm, hany]

/-- Witness for C5 (amended): `"abc"` (no digits) and `"123"` (no colon)
both get the generic wrong-format reply. -/
theorem c5_malformed_tokens_witness :
    remindmeParts [chars "abc", chars "задача"] 0 0 = Reply.malformed ∧
    remindmeParts [chars "123"] 5 100 = Reply.malformed := by
  constructor
  · exact c5_malformed_tokens (chars "abc") [chars "задача"] 0 0 (by decide)
      (Or.inl (by decide))
  · exact c5_malformed_tokens (chars "123") [] 5 100 (by decide)
      (Or.inr (by decide))

/-- **C5 counterexample.** The token `"h"` has no digits, but because it
contains a unit letter it takes the duration branch and draws the
duration-specific reply (line 179), not the generic `MALFORMED_TIME` one
(line 189) that the claim asserts for every digit-free token. -/
theorem c5_counterexample :
    remindmeParts [chars "h"] 0 0 = Reply.durationError ∧
    Reply.durationError ≠ Reply.malformed := by
  constructor
  · have hm : matchClock (chars "h") = none := by decide
    have hp : parse_time (chars "h") = none := by
      have h1 : findTerms (chars "h") = [] := findTerms_all_nondigit (by decide)
      simp [parse_time, h1]
    have hu : (chars "h").any isUnit = true := by decide
    simp [remindmeParts, hm, hu, hp]
  · simp

/-! ## C9: a zero duration is treated like a parse failure -/

/-- **C9.** A token that takes the duration branch and parses to exactly 0
seconds is handled identically to a failed parse: the handler's falsy check
`if not delay` (line 178) replies with the duration-format error and
returns before any reminder is created (no `scheduled*` outcome). -/
theorem c9_zero_delay_rejected (tok : List Char) (rest : List (List Char))
    (d : ℤ) (tod : ℚ)
    (hm : matchClock tok = none) (hu : tok.any isUnit = true)
    (hp : parse_time tok = some 0) :
    remindmeParts (tok :: rest) d tod = .durationError := by
  simp [remindmeParts, hm, hu, hp]

/-- Witness for C9: `"0s"` with task text present yields the duration
error and no reminder. -/
theorem c9_zero_delay_rejected_witness :
    remindmeParts [chars "0s", chars "feed cat"] 0 0 = Reply.durationError := by
  have hp : parse_time (chars "0s") = some 0 := by
    have h := @parse_time_render [⟨chars "0", none, 's'⟩] (by decide) (by simp)
    have hr : render [⟨chars "0", none, 's'⟩] = chars "0s" := by decide
    rw [hr] at h
    rw [h]
    have h0 : digitsVal ['0'] = 0 := by decide
    simp +decide [termVal, unitVal, chars, h0]
  exact c9_zero_delay_rejected (chars "0s") [chars "feed cat"] 0 0
    (by decide) (by decide) hp

/-! ## Enrichment helpers (bot.py lines 91-134) -/

/-- `len(text.split())`: number of maximal non-whitespace runs. -/
def wcAux : List Char → Bool → Nat
  | [], _ => 0
  | c :: cs, inWord =>
    if c.isWhitespace then wcAux cs false
    else (if inWord then 0 else 1) + wcAux cs true

/-- `len(text.split())` of Python. -/
def wordCount (text : List Char) : Nat := wcAux text false

/-- The triple `fetch_image_from_pexels` returns on success:
`(src.original, photographer, photographer_url)`, each possibly `None`. -/
structure ImageInfo where
  url : Option (List Char)
  photographer : Option (List Char)
  photographerUrl : Option (List Char)
deriving DecidableEq

/-- `get_image_from_text` (bot.py lines 111-118): texts longer than 8 words
skip the lookup entirely and return `None`; otherwise the Pexels lookup (an
oracle here) is consulted, itself returning `None` on any non-200 response
or empty result. -/
def get_image_from_text (fetch : List Char → Option ImageInfo)
    (text : List Char) : Option ImageInfo :=
  if 8 < wordCount text then none else fetch text

/-- One message of the OpenAI response, whose `content` may be `None`. -/
structure ChatMessage where
  content : Option (List Char)
deriving DecidableEq

/-- The outcome of the `client.chat.completions.create` call: its list of
choices (each choice's `message` may be `None`), or the exception it
raised. -/
def JokeOutcome := Except (List Char) (List (Option ChatMessage))

/-- `get_joke` (bot.py lines 120-134): with a usable first choice it
returns that message's `content`; with no usable choice it returns `None`;
when the call raises, the handler returns the string
`"An error occurred: <e>"` — a real string, not `None`. -/
def get_joke (outcome : JokeOutcome) : Option (List Char) :=
  match outcome with
  | .error e => some (chars "An error occurred: " ++ e)
  | .ok choices =>
    match choices with
    | [] => none
    | m :: _ =>
      match m with
      | none => none
      | some msg => msg.content

/-- **C3 counterexample.** When joke generation raises, `get_joke` returns
the substitute string `"An error occurred: boom"` instead of none — and
the handler's `if joke:` check treats that nonempty string as a joke. -/
theorem c3_counterexample :
    get_joke (Except.error (chars "boom")) =
      some (chars "An error occurred: boom") ∧
    get_joke (Except.error (chars "boom")) ≠ none := by
  constructor
  · rfl
  · intro h
    cases h

/-- **C3 (amended).** A joke lookup that returns no usable choice (no
choice at all, a `None` message, or a `None` content) yields none, and an
exception never propagates — but an exception yields the substitute string
`"An error occurred: <e>"` rather than none. -/
theorem c3_joke_failures (e : List Char) (tl : List (Option ChatMessage)) :
    get_joke (Except.ok []) = none ∧
    get_joke (Except.ok (none :: tl)) = none ∧
    get_joke (Except.ok (some ⟨none⟩ :: tl)) = none ∧
    get_joke (Except.error e) = some (chars "An error occurred: " ++ e) :=
  ⟨rfl, rfl, rfl, rfl⟩

/-! ## The registry, the timer tasks and the cancellation dialog

`reminders` is the module-level dict keyed by `task_id`; a value is the
tuple `(chat_id, task_text, task)`.  The asyncio task created by
`command_remindme_handler` runs `schedule_reminder`: sleep, then the sends,
then `del reminders[task_id]`.  A `Sys` state holds the dict (as an
insertion-ordered association list, Python dict semantics), one record per
task ever created (its index is the task handle), and the log of sends. -/

/-- Python `dict` lookup on an insertion-ordered association list. -/
def lookupKey {V : Type} : List (Nat × V) → Nat → Option V
  | [], _ => none
  | (k, v) :: t, key => if k = key then some v else lookupKey t key

/-- Python `del d[k]` / assignment semantics: remove the entry (if any). -/
def eraseKey {V : Type} : List (Nat × V) → Nat → List (Nat × V)
  | [], _ => []
  | (k, v) :: t, key => if k = key then t else (k, v) :: eraseKey t key

/-- Python `d[k] = v`: overwrite in place if the key exists, else append. -/
def dictInsert {V : Type} (l : List (Nat × V)) (key : Nat) (v : V) :
    List (Nat × V) :=
  if (lookupKey l key).isSome then
    l.map fun p => if p.1 = key then (key, v) else p
  else l ++ [(key, v)]

/-- What has happened to one `schedule_reminder` coroutine. -/
inductive TaskStatus
  | sleeping
  | cancelled
  | done
  | crashedNone
  | crashedKey
deriving DecidableEq

/-- One scheduled reminder coroutine: the arguments
`schedule_reminder(chat_id, text, scheduled_time, task_id, image_info,
joke)` closed over at creation, plus its status.  `remId` is the
`task_id` the coroutine will `del` from `reminders`. -/
structure TaskRec where
  chat : ℤ
  text : List Char
  image : Option ImageInfo
  joke : Option (List Char)
  remId : Nat
  status : TaskStatus
deriving DecidableEq

/-- A chat-transport call made at fire time. -/
inductive SendEvent
  | photo (chat : ℤ) (url : List Char) (caption : List Char)
  | msg (chat : ℤ) (body : List Char)
deriving DecidableEq

/-- The whole mutable state: the `reminders` dict (key ↦ the stored tuple
`(chat_id, task_text, task)`, the task as an index into `tasks`), every
task ever created, and the log of sends, each tagged with the sending
task's index. -/
structure Sys where
  reminders : List (Nat × (ℤ × List Char × Nat))
  tasks : List TaskRec
  sent : List (Nat × SendEvent)
deriving DecidableEq

def Sys.init : Sys := ⟨[], [], []⟩

def statusOf (s : Sys) (i : Nat) : Option TaskStatus :=
  (s.tasks[i]?).map TaskRec.status

/-- The sends task `i` has made. -/
def sentBy (s : Sys) (i : Nat) : List SendEvent :=
  (s.sent.filter fun p => p.1 = i).map Prod.snd

/-- `x or ''` of Python. -/
def orEmpty (o : Option (List Char)) : List Char := o.getD []

/-- `if image_url:` — Python falsy check on an optional string. -/
def urlTruthy (o : Option (List Char)) : Bool :=
  match o with
  | none => false
  | some s => s ≠ []

/-- The sends `schedule_reminder` makes after waking with an unpacked
image triple (bot.py lines 64-88): photo + reminder text (+ joke) when the
url is truthy, otherwise reminder text (+ joke); the `if joke:` check
skips `None` and empty jokes. -/
def notifEvents (i : Nat) (t : TaskRec) (info : ImageInfo) :
    List (Nat × SendEvent) :=
  (if urlTruthy info.url then
    [(i, SendEvent.photo t.chat (orEmpty info.url)
        (chars "by " ++ orEmpty info.photographer ++ [' '] ++
          orEmpty info.photographerUrl)),
     (i, SendEvent.msg t.chat (chars "⏰ Reminder: " ++ t.text))]
   else [(i, SendEvent.msg t.chat (chars "⏰ Reminder: " ++ t.text))]) ++
  (match t.joke with
   | some j => if j ≠ [] then [(i, SendEvent.msg t.chat j)] else []
   | none => [])

/-- The wake of task `i` — the body of `schedule_reminder` after the sleep
(bot.py lines 63-89):

* `image_url, photographer, photographer_url = image_info` with
  `image_info = None` raises `TypeError` before anything is sent and
  before the registry `del` — nothing is sent, nothing removed;
* otherwise the sends happen, then `del reminders[task_id]` — which raises
  `KeyError` (after the sends) when the key is absent. -/
def fireStep (s : Sys) (i : Nat) : Sys :=
  match s.tasks[i]? with
  | none => s
  | some t =>
    match t.image with
    | none => { s with tasks := s.tasks.set i { t with status := .crashedNone } }
    | some info =>
      if (lookupKey s.reminders t.remId).isSome then
        { reminders := eraseKey s.reminders t.remId,
          tasks := s.tasks.set i { t with status := .done },
          sent := s.sent ++ notifEvents i t info }
      else
        { s with
          tasks := s.tasks.set i { t with status := .crashedKey },
          sent := s.sent ++ notifEvents i t info }

/-- `task_id = len(reminders) + 1` (bot.py line 193). -/
def nextTaskId (reminders : List (Nat × (ℤ × List Char × Nat))) : Nat :=
  reminders.length + 1

/-- Lines 193-196 of the handler: allocate `task_id`, create the
`schedule_reminder` task and store `(chat_id, task_text, task)` under
`task_id`. -/
def scheduleStep (s : Sys) (chat : ℤ) (text : List Char)
    (img : Option ImageInfo) (joke : Option (List Char)) : Sys :=
  let tid := nextTaskId s.reminders
  let idx := s.tasks.length
  { reminders := dictInsert s.reminders tid (chat, text, idx),
    tasks := s.tasks ++ [⟨chat, text, img, joke, tid, .sleeping⟩],
    sent := s.sent }

/-- `process_cancel_reply` on a live id (bot.py lines 230-235):
`reminders[task_id][2].cancel()` — which stops the coroutine only while it
is still sleeping — then `del reminders[task_id]`.  On an id that is not a
key, nothing changes (the user is told the id is invalid). -/
def cancelStep (s : Sys) (remId : Nat) : Sys :=
  match lookupKey s.reminders remId with
  | none => s
  | some (_, _, i) =>
    match s.tasks[i]? with
    | none => s
    | some t =>
      { s with
        reminders := eraseKey s.reminders remId,
        tasks := s.tasks.set i
          { t with status := if t.status = .sleeping then .cancelled else t.status } }

/-- The `/cancel` listing (bot.py line 214): `task_id: text` pairs in dict
order. -/
def listActive (s : Sys) : List (Nat × List Char) :=
  s.reminders.map fun p => (p.1, p.2.2.1)

/-- One interleaving step of the event loop: a handler invocation
scheduling a new reminder, the wake of a timer whose sleep has elapsed
(only a still-sleeping coroutine can wake), or a cancellation reply. -/
inductive Step : Sys → Sys → Prop
  | schedule (s : Sys) (chat : ℤ) (text : List Char) (img : Option ImageInfo)
      (joke : Option (List Char)) : Step s (scheduleStep s chat text img joke)
  | fire (s : Sys) (i : Nat) (h : statusOf s i = some .sleeping) :
      Step s (fireStep s i)
  | cancel (s : Sys) (remId : Nat) : Step s (cancelStep s remId)

/-- Reachability along event-loop steps. -/
def Reach : Sys → Sys → Prop := Relation.ReflTransGen Step

theorem length_of_getElem?_some {l : List TaskRec} {i : Nat} {t : TaskRec}
    (h : l[i]? = some t) : i < l.length :=
  (List.getElem?_eq_some.mp h).1

/-! ## C1: a wake with no image triple crashes before notifying -/

/-- **C1 (bug evidence).** A task whose `image_info` is `None` — in
particular any reminder whose task text has more than 8 words, for which
`get_image_from_text` returns `None` without consulting the lookup — dies
at `image_url, photographer, photographer_url = image_info` (a `TypeError`)
when its timer fires: nothing is sent and the registry entry is *not*
removed, contradicting the claimed notify-then-remove behaviour. -/
theorem c1_none_image_crashes (fetch : List Char → Option ImageInfo)
    (text : List Char) (s : Sys) (i : Nat) (t : TaskRec)
    (hw : 8 < wordCount text)
    (ht : s.tasks[i]? = some t) (himg : t.image = none) :
    get_image_from_text fetch text = none ∧
    (fireStep s i).sent = s.sent ∧
    (fireStep s i).reminders = s.reminders ∧
    statusOf (fireStep s i) i = some .crashedNone := by
  have hi : i < s.tasks.length := length_of_getElem?_some ht
  refine ⟨by simp [get_image_from_text, hw], ?_, ?_, ?_⟩ <;>
    simp [fireStep, ht, himg, statusOf, List.getElem?_set_eq_of_lt _ hi]

/-- Witness for C1: a nine-word task text, one sleeping task with no image
triple; its wake sends nothing, removes nothing, and crashes. -/
theorem c1_none_image_crashes_witness :
    get_image_from_text (fun _ => none) (chars "a b c d e f g h i") = none ∧
    (fireStep ⟨[(1, (7, chars "a b c d e f g h i", 0))],
        [⟨7, chars "a b c d e f g h i", none, none, 1, .sleeping⟩], []⟩ 0).sent =
      (⟨[(1, (7, chars "a b c d e f g h i", 0))],
        [⟨7, chars "a b c d e f g h i", none, none, 1, .sleeping⟩], []⟩ : Sys).sent ∧
    (fireStep ⟨[(1, (7, chars "a b c d e f g h i", 0))],
        [⟨7, chars "a b c d e f g h i", none, none, 1, .sleeping⟩], []⟩ 0).reminders =
      (⟨[(1, (7, chars "a b c d e f g h i", 0))],
        [⟨7, chars "a b c d e f g h i", none, none, 1, .sleeping⟩], []⟩ : Sys).reminders ∧
    statusOf (fireStep ⟨[(1, (7, chars "a b c d e f g h i", 0))],
        [⟨7, chars "a b c d e f g h i", none, none, 1, .sleeping⟩], []⟩ 0) 0 =
      some .crashedNone :=
  c1_none_image_crashes (fun _ => none) (chars "a b c d e f g h i") _ 0
    ⟨7, chars "a b c d e f g h i", none, none, 1, .sleeping⟩
    (by decide) (by decide) rfl

/-! ## C2: identifiers are reused after a removal -/

/-- **C2 (bug evidence).** `task_id = len(reminders) + 1` is not monotonic:
schedule (id 1), cancel it, schedule again — the second allocation hands
out id 1 a second time, so identifiers are reused after removals,
contradicting the claimed strict monotonicity.  (The spec itself flags
this as a latent bug of the source, §9.) -/
theorem c2_id_reused_after_removal :
    nextTaskId Sys.init.reminders = 1 ∧
    ((scheduleStep Sys.init 7 (chars "buy milk") none none).reminders.map
      Prod.fst) = [1] ∧
    (cancelStep (scheduleStep Sys.init 7 (chars "buy milk") none none)
      1).reminders = [] ∧
    nextTaskId (cancelStep (scheduleStep Sys.init 7 (chars "buy milk") none none)
      1).reminders = 1 ∧
    ((scheduleStep
        (cancelStep (scheduleStep Sys.init 7 (chars "buy milk") none none) 1)
        7 (chars "water plants") none none).reminders.map Prod.fst) = [1] := by
  refine ⟨rfl, by decide, by decide, by decide, by decide⟩

/-! ## C10: the fire-path removal raises KeyError on a missing key -/

/-- **C10.** The fire-path removal is not an idempotent no-op: when a
woken task's notification completes and its `task_id` is no longer a key
of `reminders`, `del reminders[task_id]` raises `KeyError` (the sends
having already happened) instead of silently doing nothing. -/
theorem c10_fire_keyerror (s : Sys) (i : Nat) (t : TaskRec) (info : ImageInfo)
    (ht : s.tasks[i]? = some t) (himg : t.image = some info)
    (habs : lookupKey s.reminders t.remId = none) :
    statusOf (fireStep s i) i = some .crashedKey ∧
    (fireStep s i).sent = s.sent ++ notifEvents i t info ∧
    (fireStep s i).reminders = s.reminders := by
  have hi : i < s.tasks.length := length_of_getElem?_some ht
  refine ⟨?_, ?_, ?_⟩ <;>
    simp [fireStep, ht, himg, habs, statusOf, List.getElem?_set_eq_of_lt _ hi]

/-- Witness for C10: a sleeping task whose `task_id` (1) is not a registry
key; its wake sends the notification and then crashes with `KeyError`. -/
theorem c10_fire_keyerror_witness :
    statusOf (fireStep ⟨[], [⟨5, chars "tea", some ⟨none, none, none⟩, none, 1,
        .sleeping⟩], []⟩ 0) 0 = some .crashedKey ∧
    (fireStep ⟨[], [⟨5, chars "tea", some ⟨none, none, none⟩, none, 1,
        .sleeping⟩], []⟩ 0).sent =
      ([] : List (Nat × SendEvent)) ++ notifEvents 0
        ⟨5, chars "tea", some ⟨none, none, none⟩, none, 1, .sleeping⟩
        ⟨none, none, none⟩ ∧
    (fireStep ⟨[], [⟨5, chars "tea", some ⟨none, none, none⟩, none, 1,
        .sleeping⟩], []⟩ 0).reminders = [] :=
  c10_fire_keyerror _ 0 ⟨5, chars "tea", some ⟨none, none, none⟩, none, 1,
    .sleeping⟩ ⟨none, none, none⟩ rfl rfl rfl

/-! ## C7: a cancellation while sleeping silences the task for good -/

theorem notifEvents_fst {i : Nat} {t : TaskRec} {info : ImageInfo} :
    ∀ p ∈ notifEvents i t info, p.1 = i := by
  intro p hp
  unfold notifEvents at hp
  rcases List.mem_append.mp hp with h | h
  · split at h
    · rcases (by simpa using h : _ ∨ _) with h | h <;> rw [h]
    · rw [(by simpa using h : p = _)]
  · split at h
    · split at h
      · rw [(by simpa using h : p = _)]
      · cases h
    · cases h

theorem sentBy_append_tagged {s : Sys} {evs : List (Nat × SendEvent)} {j i : Nat}
    (hj : ∀ p ∈ evs, p.1 = j) (hne : i ≠ j) (reminders tasks) :
    sentBy ⟨reminders, tasks, s.sent ++ evs⟩ i = sentBy s i := by
  unfold sentBy
  simp only [List.filter_append, List.map_append]
  have : evs.filter (fun p => decide (p.1 = i)) = [] := by
    rw [List.filter_eq_nil_iff]
    intro p hp
    simp [hj p hp, hne.symm]
  rw [this]
  simp

/-- Only a `done` or `crashedKey` task has sent anything. -/
def SentInv (s : Sys) : Prop :=
  ∀ i, sentBy s i ≠ [] →
    statusOf s i = some .done ∨ statusOf s i = some .crashedKey

theorem sentInv_init : SentInv Sys.init := by
  intro i h
  exact absurd rfl h

theorem statusOf_schedule {s : Sys} (chat : ℤ) (text : List Char)
    (img : Option ImageInfo) (joke : Option (List Char)) {i : Nat}
    (hi : i < s.tasks.length) :
    statusOf (scheduleStep s chat text img joke) i = statusOf s i := by
  unfold statusOf scheduleStep
  simp only
  rw [List.getElem?_append_left hi]

theorem sentBy_schedule (s : Sys) (chat : ℤ) (text : List Char)
    (img : Option ImageInfo) (joke : Option (List Char)) (i : Nat) :
    sentBy (scheduleStep s chat text img joke) i = sentBy s i := rfl

theorem statusOf_lt_length {s : Sys} {i : Nat} {st : TaskStatus}
    (h : statusOf s i = some st) : i < s.tasks.length := by
  unfold statusOf at h
  cases ht : s.tasks[i]? with
  | none => rw [ht] at h; cases h
  | some t => exact length_of_getElem?_some ht

/-- A step neither resurrects a dead task nor touches another task's
sends: away from the task a `fire` wakes, status and sends are
unchanged. -/
theorem fireStep_other {s : Sys} {j i : Nat} (hne : i ≠ j) :
    statusOf (fireStep s j) i = statusOf s i ∧
      sentBy (fireStep s j) i = sentBy s i := by
  unfold fireStep
  cases ht : s.tasks[j]? with
  | none => exact ⟨rfl, rfl⟩
  | some t =>
    simp only
    cases hig : t.image with
    | none =>
      constructor
      · unfold statusOf
        simp only
        rw [List.getElem?_set_ne (by omega)]
      · rfl
    | some info =>
      dsimp only
      by_cases hk : (lookupKey s.reminders t.remId).isSome
      · rw [if_pos hk]
        constructor
        · unfold statusOf
          simp only
          rw [List.getElem?_set_ne (by omega)]
        · exact sentBy_append_tagged notifEvents_fst hne _ _
      · rw [if_neg hk]
        constructor
        · unfold statusOf
          simp only
          rw [List.getElem?_set_ne (by omega)]
        · exact sentBy_append_tagged notifEvents_fst hne _ _

theorem cancelStep_sent (s : Sys) (remId : Nat) :
    (cancelStep s remId).sent = s.sent := by
  unfold cancelStep
  split
  · rfl
  · split
    · rfl
    · rfl

theorem sentBy_cancel (s : Sys) (remId : Nat) (i : Nat) :
    sentBy (cancelStep s remId) i = sentBy s i := by
  unfold sentBy
  rw [cancelStep_sent]

/-- `task.cancel()` away from the targeted task changes no status; at the
targeted task it moves `sleeping` to `cancelled` and nothing else. -/
theorem statusOf_cancel (s : Sys) (remId : Nat) (i : Nat) :
    statusOf (cancelStep s remId) i = statusOf s i ∨
      (statusOf s i = some .sleeping ∧
        statusOf (cancelStep s remId) i = some .cancelled) := by
  unfold cancelStep
  cases hl : lookupKey s.reminders remId with
  | none => exact Or.inl rfl
  | some v =>
    rcases v with ⟨c, txt, j⟩
    simp only
    cases ht : s.tasks[j]? with
    | none => exact Or.inl rfl
    | some t =>
      simp only
      by_cases hij : i = j
      · subst hij
        have hi : i < s.tasks.length := length_of_getElem?_some ht
        by_cases hsl : t.status = .sleeping
        · refine Or.inr ⟨?_, ?_⟩
          · unfold statusOf
            rw [ht]
            simp [hsl]
          · unfold statusOf
            simp only
            rw [List.getElem?_set_eq_of_lt _ hi]
            simp [hsl]
        · refine Or.inl ?_
          unfold statusOf
          simp only
          rw [List.getElem?_set_eq_of_lt _ hi, ht]
          simp [hsl]
      · refine Or.inl ?_
        unfold statusOf
        simp only
        rw [List.getElem?_set_ne (by omega)]

theorem fireStep_self_cases {s : Sys} {j : Nat} {t : TaskRec}
    (ht : s.tasks[j]? = some t) :
    ((fireStep s j).sent = s.sent ∧ statusOf (fireStep s j) j = some .crashedNone) ∨
      statusOf (fireStep s j) j = some .done ∨
      statusOf (fireStep s j) j = some .crashedKey := by
  have hj : j < s.tasks.length := length_of_getElem?_some ht
  unfold fireStep
  rw [ht]
  dsimp only
  cases hig : t.image with
  | none =>
    left
    exact ⟨rfl, by simp [statusOf, List.getElem?_set_eq_of_lt _ hj]⟩
  | some info =>
    dsimp only
    by_cases hk : (lookupKey s.reminders t.remId).isSome
    · rw [if_pos hk]
      right; left
      simp [statusOf, List.getElem?_set_eq_of_lt _ hj]
    · rw [if_neg hk]
      right; right
      simp [statusOf, List.getElem?_set_eq_of_lt _ hj]

/-- Every step preserves "only finished-or-crashed-late tasks have sent". -/
theorem sentInv_step {s s' : Sys} (st : Step s s') (h : SentInv s) :
    SentInv s' := by
  cases st with
  | schedule chat text img joke =>
    intro i hsent
    rw [sentBy_schedule] at hsent
    rcases h i hsent with hd | hd
    · exact Or.inl (by rw [statusOf_schedule _ _ _ _ (statusOf_lt_length hd)]; exact hd)
    · exact Or.inr (by rw [statusOf_schedule _ _ _ _ (statusOf_lt_length hd)]; exact hd)
  | fire j hsl =>
    intro i hsent
    by_cases hij : i = j
    · subst hij
      obtain ⟨t, ht, hts⟩ : ∃ t, s.tasks[i]? = some t ∧ t.status = .sleeping := by
        unfold statusOf at hsl
        cases ht : s.tasks[i]? with
        | none => rw [ht] at hsl; cases hsl
        | some t => rw [ht] at hsl; exact ⟨t, rfl, by simpa using hsl⟩
      rcases fireStep_self_cases ht with ⟨hse, _⟩ | hst | hst
      · have hseq : sentBy (fireStep s i) i = sentBy s i := by
          unfold sentBy; rw [hse]
        rw [hseq] at hsent
        rcases h i hsent with hd | hd <;> (rw [hsl] at hd; simp at hd)
      · exact Or.inl hst
      · exact Or.inr hst
    · obtain ⟨hsto, hseo⟩ := fireStep_other hij
      rw [hseo] at hsent
      rcases h i hsent with hd | hd
      · exact Or.inl (by rw [hsto]; exact hd)
      · exact Or.inr (by rw [hsto]; exact hd)
  | cancel remId =>
    intro i hsent
    rw [sentBy_cancel] at hsent
    rcases statusOf_cancel s remId i with hst | ⟨hsl, _⟩
    · rcases h i hsent with hd | hd
      · exact Or.inl (by rw [hst]; exact hd)
      · exact Or.inr (by rw [hst]; exact hd)
    · rcases h i hsent with hd | hd <;> (rw [hsl] at hd; simp at hd)

/-- A cancelled task stays cancelled and its sends never grow. -/
theorem cancelled_step {s s' : Sys} (st : Step s s') {i : Nat}
    (hc : statusOf s i = some .cancelled) :
    statusOf s' i = some .cancelled ∧ sentBy s' i = sentBy s i := by
  cases st with
  | schedule chat text img joke =>
    exact ⟨by rw [statusOf_schedule _ _ _ _ (statusOf_lt_length hc)]; exact hc,
      sentBy_schedule _ _ _ _ _ _⟩
  | fire j hsl =>
    by_cases hij : i = j
    · subst hij
      rw [hc] at hsl
      simp at hsl
    · obtain ⟨h1, h2⟩ := fireStep_other hij
      exact ⟨by rw [h1]; exact hc, h2⟩
  | cancel remId =>
    refine ⟨?_, sentBy_cancel _ _ _⟩
    rcases statusOf_cancel s remId i with hst | ⟨hsl, _⟩
    · rw [hst]; exact hc
    · rw [hc] at hsl
      simp at hsl

/-- Reachable states only attribute sends to finished or late-crashed
tasks. -/
theorem sentInv_reach {s : Sys} (h0 : Reach Sys.init s) : SentInv s := by
  induction h0 with
  | refl => exact sentInv_init
  | tail _ st ih => exact sentInv_step st ih

theorem cancelled_reach {s s' : Sys} (h1 : Reach s s') {i : Nat}
    (hc : statusOf s i = some .cancelled) (hs0 : sentBy s i = []) :
    statusOf s' i = some .cancelled ∧ sentBy s' i = [] := by
  induction h1 with
  | refl => exact ⟨hc, hs0⟩
  | tail _ st ih =>
    obtain ⟨ih1, ih2⟩ := ih
    obtain ⟨p1, p2⟩ := cancelled_step st ih1
    exact ⟨p1, by rw [p2, ih2]⟩

/-- **C7 (amended).** Cancelling a reminder while its timer is still
sleeping silences it for good: in every reachable state, once a task is
`cancelled` it stays `cancelled` and the notification collaborator is
never invoked for it — no send of that task exists at or after the
cancellation, so at most one of {notification delivered, cancellation
honoured} ever happens to it.  (The identifier, however, does *not* stay
out of later `list()` results: a later allocation may reuse it — see the
counterexample.) -/
theorem c7_cancelled_never_notifies (s s' : Sys) (i : Nat)
    (h0 : Reach Sys.init s) (hc : statusOf s i = some .cancelled)
    (h1 : Reach s s') :
    statusOf s' i = some .cancelled ∧ sentBy s' i = [] := by
  have hInv : SentInv s := sentInv_reach h0
  have hs0 : sentBy s i = [] := by
    by_contra hne
    rcases hInv i hne with hd | hd <;> (rw [hc] at hd; simp at hd)
  exact cancelled_reach h1 hc hs0

/-- Witness for C7 (amended): schedule one reminder, cancel it; it is
cancelled and has sent nothing (trivial tail of steps). -/
theorem c7_cancelled_never_notifies_witness :
    statusOf (cancelStep (scheduleStep Sys.init 4 (chars "water") none none) 1)
        0 = some TaskStatus.cancelled ∧
    sentBy (cancelStep (scheduleStep Sys.init 4 (chars "water") none none) 1)
        0 = [] := by
  have hreach : Reach Sys.init
      (cancelStep (scheduleStep Sys.init 4 (chars "water") none none) 1) :=
    Relation.ReflTransGen.tail
      (Relation.ReflTransGen.single (Step.schedule _ _ _ _ _))
      (Step.cancel _ _)
  exact c7_cancelled_never_notifies _ _ 0 hreach (by decide)
    Relation.ReflTransGen.refl

/-- **C7 counterexample.** The cancelled identifier does not stay absent
from `list()`: schedule twice (ids 1, 2), cancel id 2, then schedule once
more — `len(reminders) + 1` hands out id 2 again, and the very next
`list()` shows id 2 (now the new reminder).  So "absent from all
subsequent `list()` results" is false as stated. -/
theorem c7_counterexample :
    statusOf (cancelStep (scheduleStep (scheduleStep Sys.init 1 (chars "a")
        none none) 1 (chars "b") none none) 2) 1 = some TaskStatus.cancelled ∧
    lookupKey (cancelStep (scheduleStep (scheduleStep Sys.init 1 (chars "a")
        none none) 1 (chars "b") none none) 2).reminders 2 = none ∧
    Step (cancelStep (scheduleStep (scheduleStep Sys.init 1 (chars "a")
        none none) 1 (chars "b") none none) 2)
      (scheduleStep (cancelStep (scheduleStep (scheduleStep Sys.init 1
        (chars "a") none none) 1 (chars "b") none none) 2) 1 (chars "c")
        none none) ∧
    listActive (scheduleStep (cancelStep (scheduleStep (scheduleStep Sys.init 1
        (chars "a") none none) 1 (chars "b") none none) 2) 1 (chars "c")
        none none) = [(1, chars "a"), (2, chars "c")] :=
  ⟨by decide, by decide, Step.schedule _ _ _ _ _, by decide⟩

/-! ## IEEE-754 binary64 semantics of the duration arithmetic

`parse_time` above sums in exact `ℚ`; the program sums Python numbers:
an `int` amount (no decimal point) stays an exact `int`, a decimal amount
goes through `float(...)` and every `float` operation rounds to the
nearest binary64 value (ties to even).  `roundD` is that rounding for the
positive magnitudes the parser produces (far from overflow and
subnormals), and `parse_time_py` evaluates the very same regex matches
under these semantics. -/

/-- Round to the nearest integer, ties to even. -/
def rnEven (x : ℚ) : ℤ :=
  if x - ⌊x⌋ < 1/2 then ⌊x⌋
  else if (1:ℚ)/2 < x - ⌊x⌋ then ⌊x⌋ + 1
  else if 2 ∣ ⌊x⌋ then ⌊x⌋ else ⌊x⌋ + 1

/-- Round a positive rational to the nearest IEEE-754 binary64 value:
scale into the 53-bit window `[2^52, 2^53)`, round to nearest (ties to
even), scale back.  Exponent range is irrelevant at the parser's
magnitudes. -/
def roundD (q : ℚ) : ℚ :=
  if q ≤ 0 then 0
  else (rnEven (q * 2 ^ ((52:ℤ) - Int.log 2 q)) : ℚ) * 2 ^ (Int.log 2 q - 52)

theorem int_log_eq {q : ℚ} {e : ℤ} (hq : 0 < q)
    (h1 : (2:ℚ) ^ e ≤ q) (h2 : q < (2:ℚ) ^ (e + 1)) : Int.log 2 q = e := by
  have ha : e ≤ Int.log 2 q := by
    rw [← Int.zpow_le_iff_le_log (by norm_num) hq]
    exact_mod_cast h1
  have hb : Int.log 2 q < e + 1 := by
    rw [← Int.lt_zpow_iff_log_lt (by norm_num) hq]
    exact_mod_cast h2
  omega

theorem rnEven_lt {x : ℚ} {n : ℤ} (hfl : ⌊x⌋ = n) (h : x - n < 1/2) :
    rnEven x = n := by
  unfold rnEven
  rw [hfl, if_pos h]

theorem rnEven_gt {x : ℚ} {n : ℤ} (hfl : ⌊x⌋ = n) (h : (1:ℚ)/2 < x - n) :
    rnEven x = n + 1 := by
  unfold rnEven
  rw [hfl, if_neg (by linarith), if_pos h]

theorem rnEven_intCast (m : ℤ) : rnEven (m : ℚ) = m := by
  apply rnEven_lt (Int.floor_intCast m)
  norm_num

theorem roundD_val {q : ℚ} {e m : ℤ} (hq : 0 < q) (he : Int.log 2 q = e)
    (hm : rnEven (q * 2 ^ ((52:ℤ) - e)) = m) :
    roundD q = (m : ℚ) * 2 ^ (e - 52) := by
  unfold roundD
  rw [if_neg (not_le.mpr hq), he, hm]

/-- A rational whose 53-bit scaling is an integer is a binary64 value:
rounding returns it unchanged. -/
theorem roundD_exact {q : ℚ} {e m : ℤ} (hq : 0 < q) (he : Int.log 2 q = e)
    (hm : q * 2 ^ ((52:ℤ) - e) = (m : ℚ)) : roundD q = q := by
  have h1 : rnEven (q * 2 ^ ((52:ℤ) - e)) = m := by rw [hm]; exact rnEven_intCast m
  rw [roundD_val hq he h1, ← hm, mul_assoc,
    (by rw [← zpow_add₀ (by norm_num : (2:ℚ) ≠ 0)]; norm_num :
      (2:ℚ) ^ ((52:ℤ) - e) * 2 ^ (e - 52) = 1), mul_one]

/-- A Python number: `int`s are exact, `float`s hold the exact rational
value of the binary64 double. -/
inductive PyNum
  | int (n : ℤ)
  | float (q : ℚ)

/-- The exact value a `PyNum` denotes. -/
def pyVal : PyNum → ℚ
  | .int n => n
  | .float q => q

/-- Python `+`: `int + int` is exact; any `float` operand promotes and the
IEEE sum rounds. -/
def pyAdd : PyNum → PyNum → PyNum
  | .int a, .int b => .int (a + b)
  | a, b => .float (roundD (pyVal a + pyVal b))

/-- Python `* time_units[unit]` with an `int` unit value: exact on `int`,
rounded on `float`. -/
def pyMulNat (a : PyNum) (u : ℕ) : PyNum :=
  match a with
  | .int n => .int (n * u)
  | .float q => .float (roundD (q * u))

/-- `float(amount) if '.' in amount else int(amount)`: an integer amount
is an exact `int`; a decimal amount is the correctly rounded double of its
exact decimal value (CPython's `float(str)` rounds correctly). -/
def pyAmount (t : Term) : PyNum :=
  match t.frac with
  | none => .int (digitsVal t.whole)
  | some f => .float (roundD ((digitsVal t.whole : ℚ) + fracVal f))

/-- The `time_units` entry as the Python `int` it is. -/
def unitNat (c : Char) : ℕ := if c = 'h' then 3600 else if c = 'm' then 60 else 1

theorem unitVal_eq_unitNat (c : Char) : unitVal c = (unitNat c : ℚ) := by
  unfold unitVal unitNat
  split_ifs <;> norm_num

/-- One term's contribution, `amount * time_units[unit]`. -/
def pyTermVal (t : Term) : PyNum := pyMulNat (pyAmount t) (unitNat t.unit)

/-- The regex match as a `Term` (the same scan as `scanTerm`, keeping the
matched digits instead of evaluating them). -/
def scanTermRaw (cs : List Char) : Option (Term × List Char) :=
  match scanDigits cs with
  | (ds, rest) =>
    if ds = [] then none
    else
      match rest with
      | [] => none
      | c :: rest2 =>
        if c = '.' then
          match scanDigits rest2 with
          | (fs, rest3) =>
            if fs = [] then none
            else
              match rest3 with
              | [] => none
              | u :: rest4 =>
                if isUnit u then some (⟨ds, some fs, u⟩, rest4) else none
        else if isUnit c then some (⟨ds, none, c⟩, rest2) else none

/-- `scanTerm` is `scanTermRaw` followed by the exact evaluation. -/
theorem scanTerm_eq_raw (cs : List Char) :
    scanTerm cs = (scanTermRaw cs).map fun p => (termVal p.1, p.2) := by
  unfold scanTerm scanTermRaw
  rcases scanDigits cs with ⟨ds, rest⟩
  by_cases hds : ds = []
  · simp [hds]
  · simp only [if_neg hds]
    match rest with
    | [] => rfl
    | c :: rest2 =>
      by_cases hc : c = '.'
      · simp only [if_pos hc]
        rcases scanDigits rest2 with ⟨fs, rest3⟩
        by_cases hfs : fs = []
        · simp [hfs]
        · simp only [if_neg hfs]
          match rest3 with
          | [] => rfl
          | u :: rest4 =>
            by_cases hu : isUnit u
            · simp [hu, termVal]
            · simp [hu]
      · simp only [if_neg hc]
        by_cases hu : isUnit c
        · simp [hu, termVal]
        · simp [hu]

theorem scanTermRaw_rest_length {cs : List Char} {t : Term} {r : List Char}
    (h : scanTermRaw cs = some (t, r)) : r.length < cs.length := by
  have h2 : scanTerm cs = some (termVal t, r) := by
    rw [scanTerm_eq_raw, h]; rfl
  exact scanTerm_rest_length h2

/-- The same `findall` scan, returning the matched terms. -/
def findTermsRaw (cs : List Char) : List Term :=
  match hs : scanTermRaw cs with
  | some tr => tr.1 :: findTermsRaw tr.2
  | none =>
    match cs with
    | [] => []
    | _ :: t => findTermsRaw t
termination_by cs.length
decreasing_by
  · exact scanTermRaw_rest_length hs
  · simp

theorem scanTermRaw_nil : scanTermRaw [] = none := by
  simp [scanTermRaw, scanDigits]

theorem findTermsRaw_some {cs : List Char} {t : Term} {r : List Char}
    (h : scanTermRaw cs = some (t, r)) :
    findTermsRaw cs = t :: findTermsRaw r := by
  rw [findTermsRaw]
  split
  · rename_i tr htr
    rw [h] at htr
    cases htr
    rfl
  · rename_i htr
    rw [h] at htr
    cases htr

theorem findTermsRaw_none {c : Char} {t : List Char}
    (h : scanTermRaw (c :: t) = none) :
    findTermsRaw (c :: t) = findTermsRaw t := by
  rw [findTermsRaw]
  split
  · rename_i tr htr
    rw [h] at htr
    cases htr
  · rfl

theorem findTermsRaw_nil : findTermsRaw [] = [] := by
  rw [findTermsRaw]
  split
  · rename_i tr htr
    rw [scanTermRaw_nil] at htr
    cases htr
  · rfl

/-- The two scans find the same matches. -/
theorem findTerms_eq_raw : ∀ cs, findTerms cs = (findTermsRaw cs).map termVal := by
  have H : ∀ n cs, List.length cs ≤ n →
      findTerms cs = (findTermsRaw cs).map termVal := by
    intro n
    induction n with
    | zero =>
      intro cs hcs
      have : cs = [] := List.length_eq_zero.mp (Nat.le_zero.mp hcs)
      subst this
      simp [findTerms_nil, findTermsRaw_nil]
    | succ n ih =>
      intro cs hcs
      cases hr : scanTermRaw cs with
      | some tr =>
        rcases tr with ⟨t, r⟩
        have h2 : scanTerm cs = some (termVal t, r) := by
          rw [scanTerm_eq_raw, hr]; rfl
        rw [findTerms_some h2, findTermsRaw_some hr]
        have hlt := scanTermRaw_rest_length hr
        rw [ih r (by omega)]
        rfl
      | none =>
        have h2 : scanTerm cs = none := by
          rw [scanTerm_eq_raw, hr]; rfl
        cases cs with
        | nil => simp [findTerms_nil, findTermsRaw_nil]
        | cons c tcs =>
          rw [findTerms_none h2, findTermsRaw_none hr]
          exact ih tcs (by simp at hcs; omega)
  exact fun cs => H cs.length cs le_rfl

theorem scanTermRaw_render {t : Term} (hw : WfTerm t) (rest : List Char) :
    scanTermRaw (renderTerm t ++ rest) = some (t, rest) := by
  obtain ⟨w, fr, u⟩ := t
  obtain ⟨hne, hdig, hfrac, hunit⟩ := hw
  cases fr with
  | none =>
    have hr : renderTerm ⟨w, none, u⟩ ++ rest = w ++ (u :: rest) := by
      simp [renderTerm]
    rw [hr]
    unfold scanTermRaw
    rw [scanDigits_append hdig (by simpa using isUnit_not_digit hunit)]
    simp [hne, isUnit_ne_dot hunit, hunit]
  | some f =>
    obtain ⟨hfne, hfdig⟩ := hfrac f (by simp)
    have hr : renderTerm ⟨w, some f, u⟩ ++ rest = w ++ ('.' :: (f ++ (u :: rest))) := by
      simp [renderTerm]
    rw [hr]
    unfold scanTermRaw
    rw [scanDigits_append hdig (by simp)]
    simp only [if_neg hne, reduceIte]
    rw [scanDigits_append hfdig (by simpa using isUnit_not_digit hunit)]
    simp [hfne, hunit]

theorem findTermsRaw_render {ts : List Term} (hw : ∀ t ∈ ts, WfTerm t) :
    findTermsRaw (render ts) = ts := by
  induction ts with
  | nil => simpa [render] using findTermsRaw_nil
  | cons t ts ih =>
    have h1 : render (t :: ts) = renderTerm t ++ render ts := by
      simp [render]
    rw [h1, findTermsRaw_some (scanTermRaw_render (hw t (by simp)) (render ts)),
      ih (fun u hu => hw u (by simp [hu]))]

/-- `parse_time` under Python's own numeric semantics: the identical
matches, each term evaluated as `amount * time_units[unit]` with
`int`/`float` promotion, accumulated left to right from the `int` 0, each
`float` operation rounding to binary64. -/
def parse_time_py (cs : List Char) : Option ℚ :=
  match findTermsRaw cs with
  | [] => none
  | ts => some (pyVal (ts.foldl (fun acc t => pyAdd acc (pyTermVal t)) (.int 0)))

theorem pyAdd_int_int (a b : ℤ) : pyAdd (.int a) (.int b) = .int (a + b) := rfl

theorem pyAdd_int_float (a : ℤ) (q : ℚ) :
    pyAdd (.int a) (.float q) = .float (roundD ((a : ℚ) + q)) := rfl

/-- A left fold of integer-amount terms stays in exact `int` arithmetic
and equals the exact sum. -/
theorem pyVal_fold (ts : List Term) (hint : ∀ t ∈ ts, t.frac = none) (n : ℤ) :
    pyVal (ts.foldl (fun acc t => pyAdd acc (pyTermVal t)) (.int n)) =
      (n : ℚ) + (ts.map termVal).sum := by
  induction ts generalizing n with
  | nil => simp [pyVal]
  | cons t ts ih =>
    have hf : t.frac = none := hint t (by simp)
    have h1 : pyTermVal t = .int ((digitsVal t.whole : ℤ) * (unitNat t.unit : ℕ)) := by
      simp [pyTermVal, pyAmount, pyMulNat, hf]
    have h2 : termVal t = (((digitsVal t.whole : ℤ) * (unitNat t.unit : ℕ) : ℤ) : ℚ) := by
      simp only [termVal, hf]
      rw [unitVal_eq_unitNat]
      push_cast
      ring
    rw [List.foldl_cons, h1, pyAdd_int_int,
      ih (fun u hu => hint u (by simp [hu])), List.map_cons, List.sum_cons, h2]
    push_cast
    ring

/-! ### Concrete binary64 values -/

/-- `float("1.1")`: the nearest double to 11/10. -/
theorem roundD_one_one :
    roundD (11/10) = 2476979795053773 / 2251799813685248 := by
  have he : Int.log 2 ((11:ℚ)/10) = 0 :=
    int_log_eq (by norm_num) (by norm_num) (by norm_num)
  have hfl : ⌊((11:ℚ)/10) * 2 ^ ((52:ℤ) - 0)⌋ = 4953959590107545 := by
    rw [Int.floor_eq_iff]
    norm_num
  have hm : rnEven (((11:ℚ)/10) * 2 ^ ((52:ℤ) - 0)) = 4953959590107546 := by
    have := rnEven_gt hfl (by norm_num)
    simpa using this
  rw [roundD_val (by norm_num) he hm]
  norm_num

/-- `float("1.1") * 3600`, rounded: one ulp above 3960. -/
theorem roundD_one_one_mul :
    roundD ((2476979795053773 / 2251799813685248 : ℚ) * 3600) =
      8708132091985921 / 2199023255552 := by
  have harg : (2476979795053773 / 2251799813685248 : ℚ) * 3600 =
      557320453887098925 / 140737488355328 := by norm_num
  rw [harg]
  have he : Int.log 2 ((557320453887098925 : ℚ) / 140737488355328) = 11 :=
    int_log_eq (by norm_num) (by norm_num) (by norm_num)
  have hfl : ⌊((557320453887098925 : ℚ) / 140737488355328) * 2 ^ ((52:ℤ) - 11)⌋ =
      8708132091985920 := by
    rw [Int.floor_eq_iff]
    norm_num
  have hm : rnEven (((557320453887098925 : ℚ) / 140737488355328) *
      2 ^ ((52:ℤ) - 11)) = 8708132091985921 := by
    have := rnEven_gt hfl (by norm_num)
    simpa using this
  rw [roundD_val (by norm_num) he hm]
  norm_num

theorem roundD_result_fixed :
    roundD ((8708132091985921 : ℚ) / 2199023255552) =
      8708132091985921 / 2199023255552 :=
  roundD_exact (by norm_num)
    (int_log_eq (by norm_num) (by norm_num) (by norm_num))
    (by norm_num : ((8708132091985921 : ℚ) / 2199023255552) *
      2 ^ ((52:ℤ) - 11) = ((8708132091985921 : ℤ) : ℚ))

/-- 3.5 is exactly representable. -/
theorem roundD_three_half : roundD ((7:ℚ)/2) = 7/2 :=
  roundD_exact (by norm_num)
    (int_log_eq (by norm_num) (by norm_num) (by norm_num))
    (by norm_num : ((7:ℚ)/2) * 2 ^ ((52:ℤ) - 1) = ((7881299347898368 : ℤ) : ℚ))

/-- 12600 is exactly representable. -/
theorem roundD_12600 : roundD (12600 : ℚ) = 12600 :=
  roundD_exact (by norm_num)
    (int_log_eq (by norm_num) (by norm_num) (by norm_num))
    (by norm_num : (12600 : ℚ) * 2 ^ ((52:ℤ) - 13) = ((6926923254988800 : ℤ) : ℚ))

/-- **C6 counterexample.** Under the program's own IEEE-double arithmetic
the parsed delay of `"1.1h"` is `3960.0000000000005` — exactly
`8708132091985921 / 2199023255552`, one ulp above 3960 — and not the
exact sum `1.1 * 3600 = 3960` the claim asserts for every valid duration
token. -/
theorem c6_float_counterexample :
    parse_time_py (chars "1.1h") = some (8708132091985921 / 2199023255552) ∧
    parse_time_py (chars "1.1h") ≠
      some ((([⟨chars "1", some (chars "1"), 'h'⟩] : List Term).map termVal).sum) := by
  have hren : chars "1.1h" = render [⟨chars "1", some (chars "1"), 'h'⟩] := by decide
  have hfr : findTermsRaw (chars "1.1h") = [⟨chars "1", some (chars "1"), 'h'⟩] := by
    rw [hren]
    exact findTermsRaw_render (by decide)
  have hd1 : digitsVal (chars "1") = 1 := by decide
  have hl1 : (chars "1").length = 1 := by decide
  have hamount : pyAmount ⟨chars "1", some (chars "1"), 'h'⟩ =
      PyNum.float (2476979795053773 / 2251799813685248) := by
    simp only [pyAmount]
    rw [show ((digitsVal (chars "1") : ℚ) + fracVal (chars "1")) = 11/10 by
      unfold fracVal
      rw [hd1, hl1]
      norm_num]
    rw [roundD_one_one]
  have hterm : pyTermVal ⟨chars "1", some (chars "1"), 'h'⟩ =
      PyNum.float (8708132091985921 / 2199023255552) := by
    unfold pyTermVal
    rw [hamount]
    simp only [pyMulNat]
    rw [show ((2476979795053773 / 2251799813685248 : ℚ) * (unitNat 'h' : ℕ)) =
      (2476979795053773 / 2251799813685248 : ℚ) * 3600 by norm_num [unitNat]]
    rw [roundD_one_one_mul]
  have h1 : parse_time_py (chars "1.1h") =
      some (8708132091985921 / 2199023255552) := by
    unfold parse_time_py
    rw [hfr]
    show some (pyVal (pyAdd (PyNum.int 0)
      (pyTermVal ⟨chars "1", some (chars "1"), 'h'⟩))) = _
    rw [hterm, pyAdd_int_float]
    rw [show (((0:ℤ) : ℚ) + 8708132091985921 / 2199023255552) =
      ((8708132091985921 : ℚ) / 2199023255552) by norm_num]
    rw [roundD_result_fixed]
    rfl
  refine ⟨h1, ?_⟩
  rw [h1]
  have hsum : (([⟨chars "1", some (chars "1"), 'h'⟩] : List Term).map termVal).sum =
      3960 := by
    simp only [List.map_cons, List.map_nil, List.sum_cons, List.sum_nil, termVal]
    unfold fracVal
    rw [hd1, hl1, unitVal_eq_unitNat]
    norm_num [unitNat]
  rw [hsum]
  intro habs
  rw [Option.some.injEq] at habs
  norm_num at habs

/-- **C6 (amended).** For every valid duration token whose
`<number><unit>` terms are integers, the program's parsed delay equals the
exact sum of each term's number times {h:3600, m:60, s:1}: integer
amounts stay Python `int`s, so the arithmetic is exact — both under the
IEEE-double model (`parse_time_py`) and in exact arithmetic
(`parse_time`), and repeated units are additive.  Decimal terms go
through binary64 `float`s and may deviate from the exact sum by rounding
(see the counterexample, `"1.1h"`); decimals exactly representable in
binary, such as `"3.5h" = 12600` seconds, still come out exact (checked
in the witness). -/
theorem c6_integer_terms_exact (ts : List Term) (hw : ∀ t ∈ ts, WfTerm t)
    (hint : ∀ t ∈ ts, t.frac = none) (hne : ts ≠ []) :
    parse_time_py (render ts) = some ((ts.map termVal).sum) ∧
    parse_time (render ts) = some ((ts.map termVal).sum) := by
  refine ⟨?_, parse_time_render hw hne⟩
  unfold parse_time_py
  rw [findTermsRaw_render hw]
  cases ts with
  | nil => cases hne rfl
  | cons t ts2 =>
    show some (pyVal _) = _
    rw [pyVal_fold _ hint 0]
    norm_num

/-- Witness for C6 (amended): the spec's examples under the program's own
arithmetic — `"2h2m4s"` is 7324 s, `"1h1h"` is 7200 s, and the
binary-representable decimal `"3.5h"` is exactly 12600 s. -/
theorem c6_integer_terms_exact_witness :
    parse_time_py (chars "2h2m4s") = some 7324 ∧
    parse_time (chars "2h2m4s") = some 7324 ∧
    parse_time_py (chars "1h1h") = some 7200 ∧
    parse_time_py (chars "3.5h") = some 12600 := by
  have hb := c6_integer_terms_exact
    [⟨chars "2", none, 'h'⟩, ⟨chars "2", none, 'm'⟩, ⟨chars "4", none, 's'⟩]
    (by decide) (by decide) (by simp)
  have hbr : render
      [⟨chars "2", none, 'h'⟩, ⟨chars "2", none, 'm'⟩, ⟨chars "4", none, 's'⟩] =
      chars "2h2m4s" := by decide
  have hbs : (([⟨chars "2", none, 'h'⟩, ⟨chars "2", none, 'm'⟩,
      ⟨chars "4", none, 's'⟩] : List Term).map termVal).sum = 7324 := by
    simp +decide [termVal, unitVal, chars]
    have h2 : digitsVal ['2'] = 2 := by decide
    have h4 : digitsVal ['4'] = 4 := by decide
    norm_num [h2, h4]
  have hc := c6_integer_terms_exact [⟨chars "1", none, 'h'⟩, ⟨chars "1", none, 'h'⟩]
    (by decide) (by decide) (by simp)
  have hcr : render [⟨chars "1", none, 'h'⟩, ⟨chars "1", none, 'h'⟩] =
      chars "1h1h" := by decide
  have hcs : (([⟨chars "1", none, 'h'⟩, ⟨chars "1", none, 'h'⟩] : List Term).map
      termVal).sum = 7200 := by
    simp +decide [termVal, unitVal, chars]
    have h1 : digitsVal ['1'] = 1 := by decide
    norm_num [h1]
  refine ⟨?_, ?_, ?_, ?_⟩
  · rw [← hbr, hb.1, hbs]
  · rw [← hbr, hb.2, hbs]
  · rw [← hcr, hc.1, hcs]
  · -- "3.5h": direct IEEE evaluation
    have hren : chars "3.5h" = render [⟨chars "3", some (chars "5"), 'h'⟩] := by decide
    have hfr : findTermsRaw (chars "3.5h") = [⟨chars "3", some (chars "5"), 'h'⟩] := by
      rw [hren]
      exact findTermsRaw_render (by decide)
    have hd3 : digitsVal (chars "3") = 3 := by decide
    have hd5 : digitsVal (chars "5") = 5 := by decide
    have hl5 : (chars "5").length = 1 := by decide
    have hamount : pyAmount ⟨chars "3", some (chars "5"), 'h'⟩ =
        PyNum.float (7/2) := by
      simp only [pyAmount]
      rw [show ((digitsVal (chars "3") : ℚ) + fracVal (chars "5")) = 7/2 by
        unfold fracVal
        rw [hd3, hd5, hl5]
        norm_num]
      rw [roundD_three_half]
    have hterm : pyTermVal ⟨chars "3", some (chars "5"), 'h'⟩ =
        PyNum.float 12600 := by
      unfold pyTermVal
      rw [hamount]
      simp only [pyMulNat]
      rw [show ((7:ℚ)/2 * (unitNat 'h' : ℕ)) = (12600 : ℚ) by norm_num [unitNat]]
      rw [roundD_12600]
    unfold parse_time_py
    rw [hfr]
    show some (pyVal (pyAdd (PyNum.int 0)
      (pyTermVal ⟨chars "3", some (chars "5"), 'h'⟩))) = _
    rw [hterm, pyAdd_int_float]
    rw [show (((0:ℤ) : ℚ) + 12600) = (12600 : ℚ) by norm_num]
    rw [roundD_12600]
    rfl
